import Mathlib

/-!
Verification development for the pgconf repository: a whitespace- and
comment-preserving reader/editor for line-oriented, delimited configuration
text (the generic engine in `generic`, its postgresql.conf wrapper in `conf`).

The Go code is shallowly embedded: Go strings become `List Char` (the code's
inputs of interest are ASCII, where Go's byte indices coincide with character
indices), Go `int` positions become `Int` where the `-1` sentinel matters and
`Nat` for buffer offsets (a negative offset would panic in Go's slicing),
fallible functions return `Except Err`.  Go's `strings.Index(set, string(r))
> -1` on a one-character needle is membership of that character in the set.
Go string-slicing panics when indices are out of range; the embedding uses
`List.take`/`List.drop`, and theorems that depend on in-range positions carry
them as hypotheses.
-/

namespace Pgconf

/-- Error values of the repository (Go returns `error` strings built with
`fmt.Errorf`; each distinct message is a constructor carrying the formatted
data).  `couldNotRetrieveToken`/`couldNotGetValueSize` are the wrapping errors
of `Raw`/`SetRaw`; Go's `SetRaw` messages omit the column number but are
otherwise the same wrappers. -/
inductive Err where
  | keyNotFound : Err
  | emptyLine : Err
  | invalidColumn (col : Int) : Err
  | tokenStartUnset : Err
  | tokenEndUnset : Err
  | tokenStartGtEnd (s e : Int) : Err
  | couldNotRetrieveToken (col : Int) (e : Err) : Err
  | couldNotGetValueSize (col : Int) (e : Err) : Err
  | valueSizeNotPositive (size col : Int) : Err
  | unknownBoolean : Err
  deriving DecidableEq, Repr

/-- `generic.Params` (src/unnamed/part_000 lines 15-23): the dialect
configuration.  Character sets are lists of characters. -/
structure Params where
  Whitespace : List Char
  DefaultDelim : List Char
  Quotes : List Char
  BackslashEscapedQuotes : Bool
  DefaultQuote : Char
  InlineComment : Char
  AlwaysQuoteStrings : Bool
  deriving DecidableEq, Repr

/-- `generic.NewParams`: the generic-dialect defaults. -/
def NewParams : Params where
  Whitespace := [' ', '\t', '\r']
  DefaultDelim := ['\t']
  Quotes := ['"', '\'']
  BackslashEscapedQuotes := true
  DefaultQuote := '"'
  InlineComment := '#'
  AlwaysQuoteStrings := false

/-- `conf.NewParams`: the postgresql.conf dialect (src/conf/conf.go 29-39),
with `=` treated as whitespace. -/
def confNewParams : Params where
  Whitespace := [' ', '\t', '\r', '=']
  DefaultDelim := [' ', '=', ' ']
  Quotes := ['"', '\'']
  BackslashEscapedQuotes := true
  DefaultQuote := '\''
  InlineComment := '#'
  AlwaysQuoteStrings := true

/-- `generic.Token` (src/generic/row.go 11-14): a half-open byte range
`[Start, End)`; `-1` is the unset sentinel. -/
structure Token where
  Start : Int
  End : Int
  deriving DecidableEq, Repr

/-- `Token.ValueSize` (src/generic/row.go 17-26). -/
def Token.ValueSize (t : Token) : Except Err Int :=
  if t.Start = -1 then .error .tokenStartUnset
  else if t.End = -1 then .error .tokenEndUnset
  else if t.Start > t.End then .error (.tokenStartGtEnd t.Start t.End)
  else .ok (t.End - t.Start)

/-- `generic.Row` (src/generic/row.go 29-31): the ordered tokens of one line. -/
structure Row where
  tokens : List Token
  deriving DecidableEq, Repr

/-- `Row.ColCount` (src/generic/row.go 40-42). -/
def Row.ColCount (r : Row) : Nat := r.tokens.length

/-- `Row.HasColumn` (src/generic/row.go 45-47):
`col >= 0 && col < len(r.tokens)`. -/
def Row.HasColumn (r : Row) (col : Int) : Bool :=
  0 ≤ col && col < (r.tokens.length : Int)

/-- `Row.Token` (src/generic/row.go 65-70). -/
def Row.Token (r : Row) (col : Int) : Except Err Token :=
  if h : r.HasColumn col = true then
    .ok (r.tokens.get ⟨col.toNat, by
      simp only [Row.HasColumn, Bool.and_eq_true, decide_eq_true_eq] at h
      omega⟩)
  else .error (.invalidColumn col)

/-- `generic.Conf` (src/unnamed/part_005 47-50): the whole configuration text
and the dialect. -/
structure Conf where
  conf : List Char
  params : Params
  deriving DecidableEq, Repr

/-- The scanner state of `parseLine`'s loop (its local variables
`pos`, `insideQuote`, `expectedQuote`, `lastRune`, `start`, `end`, and the
row built so far).  Go's zero rune initialises `lastRune`. -/
structure ScanState where
  pos : Int
  insideQuote : Bool
  expectedQuote : List Char
  lastRune : Char
  start : Int
  endPos : Int
  tokens : List Token
  deriving DecidableEq, Repr

/-- The loop-stopping test of `parseLine` (src/unnamed/part_005 146-148):
the inline-comment character or a newline ends the scan. -/
def scanStop (p : Params) (r : Char) : Bool :=
  r == p.InlineComment || r == '\n'

/-- One non-stopping iteration of `parseLine`'s loop (src/unnamed/part_005
150-185) on the character `r` at index `i` of the line. -/
def scanStep (p : Params) (offset : Nat) (st : ScanState) (i : Nat) (r : Char) :
    ScanState :=
  let pos : Int := (offset : Int) + i
  let isWhitespace := p.Whitespace.contains r
  let isQuote := st.expectedQuote.contains r
  if st.start > -1 then
    let toggle := isQuote &&
      (!p.BackslashEscapedQuotes || !(st.lastRune == '\\'))
    let insideQuote := if toggle then !st.insideQuote else st.insideQuote
    let expectedQuote :=
      if toggle then (if insideQuote then [r] else p.Quotes)
      else st.expectedQuote
    if isWhitespace && !insideQuote then
      { pos, insideQuote, expectedQuote, lastRune := r,
        start := -1, endPos := -1,
        tokens := st.tokens ++ [⟨st.start, pos⟩] }
    else
      { pos, insideQuote, expectedQuote, lastRune := r,
        start := st.start, endPos := st.endPos, tokens := st.tokens }
  else
    if isWhitespace then
      { st with pos := pos }
    else
      { pos,
        insideQuote := if isQuote then true else st.insideQuote,
        expectedQuote := if isQuote then [r] else st.expectedQuote,
        lastRune := r, start := pos, endPos := st.endPos,
        tokens := st.tokens }

/-- The whole loop of `parseLine` (src/unnamed/part_005 144-186): runs
`scanStep` on each character, stopping at the first comment character or
newline. -/
def scanLine (p : Params) (offset : Nat) : List Char → Nat → ScanState → ScanState
  | [], _, st => st
  | r :: rest, i, st =>
    if scanStop p r then st
    else scanLine p offset rest (i + 1) (scanStep p offset st i r)

/-- The initial scanner state of `parseLine` (src/unnamed/part_005 139-143). -/
def initState (p : Params) : ScanState where
  pos := -1
  insideQuote := false
  expectedQuote := p.Quotes
  lastRune := Char.ofNat 0
  start := -1
  endPos := -1
  tokens := []

/-- `Conf.parseLine` (src/unnamed/part_005 135-200): scan the line, finalize
the last open column at `pos + 1`, and fail with `EmptyLine` when no column
was opened and none was produced. -/
def parseLine (c : Conf) (line : List Char) (offset : Nat) : Except Err Row :=
  let st := scanLine c.params offset line 0 (initState c.params)
  let tokens :=
    if st.start > -1 && st.endPos == -1 then st.tokens ++ [⟨st.start, st.pos + 1⟩]
    else st.tokens
  if st.start == -1 && tokens.length == 0 then .error .emptyLine
  else .ok ⟨tokens⟩

/-- `Conf.Raw` (src/unnamed/part_005 272-293): the exact substring spanned by
the column's token. -/
def Raw (c : Conf) (row : Row) (col : Int) : Except Err (List Char) :=
  match row.Token col with
  | .error e => .error (.couldNotRetrieveToken col e)
  | .ok token =>
    let offset := token.Start
    match token.ValueSize with
    | .error e => .error (.couldNotGetValueSize col e)
    | .ok size =>
      if size ≤ 0 then .error (.valueSizeNotPositive size col)
      else .ok ((c.conf.drop offset.toNat).take size.toNat)

/-- `Conf.SetRaw` (src/unnamed/part_005 378-399): splice `value` over the
token's byte range, returning the new buffer text. -/
def SetRaw (c : Conf) (row : Row) (col : Int) (value : List Char) :
    Except Err (List Char) :=
  match row.Token col with
  | .error e => .error (.couldNotRetrieveToken col e)
  | .ok token =>
    let offset := token.Start
    match token.ValueSize with
    | .error e => .error (.couldNotGetValueSize col e)
    | .ok oldSize =>
      if oldSize ≤ 0 then .error (.valueSizeNotPositive oldSize col)
      else .ok (c.conf.take offset.toNat ++ value ++
                c.conf.drop (offset + oldSize).toNat)

/-- The scan of Go's `strings.Replace`: on a leftmost occurrence of `old`
emit `new` and skip past it, else keep the character.  Recursion is on a
fuel bound (`s.length` suffices when `old` is non-empty, as each step
consumes at least one character); exhausted fuel returns the rest
unchanged. -/
def goReplaceAux : Nat → List Char → List Char → List Char → List Char
  | 0, s, _, _ => s
  | _ + 1, [], _, _ => []
  | fuel + 1, ch :: rest, old, new =>
    if old.isPrefixOf (ch :: rest) then
      new ++ goReplaceAux fuel ((ch :: rest).drop old.length) old new
    else
      ch :: goReplaceAux fuel rest old new

/-- Go's `strings.Replace(s, old, new, -1)` on character lists: replace all
non-overlapping occurrences, left to right.  The callers of this embedding
never pass an empty `old` (Go's insert-between-characters case). -/
def goReplace (s old new : List Char) : List Char :=
  if old = [] then s else goReplaceAux s.length s old new

/-- `Conf.EscapeQuotes` (src/unnamed/part_005 219-224). -/
def EscapeQuotes (value : List Char) (quote : Char) : List Char :=
  goReplace value [quote] [quote, quote]

/-- `Conf.UnescapeQuotes` (src/unnamed/part_005 228-238). -/
def UnescapeQuotes (c : Conf) (value : List Char) (quote : Char) : List Char :=
  let value := goReplace value [quote, quote] [quote]
  if c.params.BackslashEscapedQuotes then goReplace value ['\\', quote] [quote]
  else value

/-- `Conf.Quote` (src/unnamed/part_005 242-245). -/
def Quote (c : Conf) (value : List Char) : List Char :=
  let quote := c.params.DefaultQuote
  quote :: (EscapeQuotes value quote ++ [quote])

/-- `Conf.Dequote` (src/unnamed/part_005 248-268). -/
def Dequote (c : Conf) (value : List Char) : List Char :=
  if value.length < 2 then value
  else
    match value with
    | [] => []
    | first :: _ =>
      if ¬ c.params.Quotes.contains first then value
      else if ¬ (value.getLast? = some first) then value
      else UnescapeQuotes c ((value.drop 1).take (value.length - 2)) first

/-- Go's `unicode.IsSpace` on the characters `strings.TrimSpace` trims
(space, tab, newline, vertical tab, form feed, carriage return, NEL, NBSP). -/
def isGoSpace (ch : Char) : Bool :=
  ch == ' ' || ch == '\t' || ch == '\n' || ch == Char.ofNat 11 ||
  ch == Char.ofNat 12 || ch == '\r' || ch == Char.ofNat 0x85 ||
  ch == Char.ofNat 0xA0

/-- Go's `strings.TrimSpace`. -/
def trimSpaceGo (s : List Char) : List Char :=
  ((s.dropWhile isGoSpace).reverse.dropWhile isGoSpace).reverse

/-- Go's `strings.ToLower`, ASCII range (the repository's keys and boolean
words are ASCII). -/
def toLowerChar (ch : Char) : Char :=
  if 'A' ≤ ch ∧ ch ≤ 'Z' then Char.ofNat (ch.toNat + 32) else ch

/-- `strings.ToLower` over a whole string. -/
def toLowerStr (s : List Char) : List Char := s.map toLowerChar

/-- The value-matching of `conf.BoolK` (src/conf/conf.go 177-196) and of
`pgconf.AsBool` (src/pgconf.go 211-227), applied to the dequoted string value:
trim, lowercase, then the fixed chain of tests. -/
def parseBoolGo (value : List Char) : Except Err Bool :=
  let v := toLowerStr (trimSpaceGo value)
  if v = "on".data then .ok true
  else if ("of".data).isPrefixOf v then .ok false
  else if ("t".data).isPrefixOf v then .ok true
  else if ("f".data).isPrefixOf v then .ok false
  else if ("y".data).isPrefixOf v then .ok true
  else if ("n".data).isPrefixOf v then .ok false
  else if v = "1".data then .ok true
  else if v = "0".data then .ok false
  else .error .unknownBoolean

/-- The boolean grammar exactly as the specification's sentence states it
(spec §4.2): exact `on`; any non-empty prefix of the word `off`; any
non-empty prefix of `true`; of `false`; of `yes`; of `no`; exact `1`; exact
`0`; otherwise no value.  Stated for comparison with `parseBoolGo`. -/
def claimBoolSpec (value : List Char) : Option Bool :=
  let v := toLowerStr (trimSpaceGo value)
  if v = "on".data then some true
  else if !v.isEmpty && v.isPrefixOf ("off".data) then some false
  else if !v.isEmpty && v.isPrefixOf ("true".data) then some true
  else if !v.isEmpty && v.isPrefixOf ("false".data) then some false
  else if !v.isEmpty && v.isPrefixOf ("yes".data) then some true
  else if !v.isEmpty && v.isPrefixOf ("no".data) then some false
  else if v = "1".data then some true
  else if v = "0".data then some false
  else none

/-- The successive chunks `bufio.Reader.ReadString('\n')` yields on a text:
each line keeps its trailing newline; a final chunk without one is the
text's unterminated tail.  (The reader's very last empty read at EOF is the
`[]` base case of the loops below.) -/
def splitLines : List Char → List (List Char)
  | [] => []
  | r :: rest =>
    if r = '\n' then [r] :: splitLines rest
    else
      match splitLines rest with
      | [] => [[r]]
      | l :: ls => (r :: l) :: ls

/-- The match test of one iteration of `Conf.LookupRow`'s loop
(src/unnamed/part_005 113-121): parse the line at its offset; if the row has
the key column, compare that column's raw text with the key (`rowKey` is the
empty string when `Raw` errs, as in Go); `some row` when the line is the one
the lookup returns.  Note Go's `&&`/`||` precedence: the error check guards
only the exact comparison, not the case-insensitive one. -/
def lineMatch (c : Conf) (keyCol : Int) (key : List Char) (ignoreCase : Bool)
    (line : List Char) (offset : Nat) : Option Row :=
  match parseLine c line offset with
  | .error _ => none
  | .ok row =>
    if row.HasColumn keyCol then
      let rawRes := Raw c row keyCol
      let noErr : Bool := match rawRes with | .ok _ => true | .error _ => false
      let rowKey : List Char := match rawRes with | .ok s => s | .error _ => []
      if (noErr && rowKey == key) ||
         (ignoreCase && (toLowerStr rowKey == toLowerStr key)) then some row
      else none
    else none

/-- The loop of `Conf.LookupRow` (src/unnamed/part_005 109-128) over the
line chunks of the text being scanned: return the first matching line's row
with the offset just past that line, stop with `KeyNotFound` after a chunk
whose read hit EOF (no trailing newline, or the final empty read `[]`). -/
def lookupLoop (c : Conf) (keyCol : Int) (key : List Char) (ic : Bool) :
    List (List Char) → Nat → Except Err (Row × Nat)
  | [], _ => .error .keyNotFound
  | line :: rest, offset =>
    let endOfLine := offset + line.length
    match lineMatch c keyCol key ic line offset with
    | some row => .ok (row, endOfLine)
    | none =>
      if line.getLast? = some '\n' then lookupLoop c keyCol key ic rest endOfLine
      else .error .keyNotFound

/-- `Conf.LookupRow` (src/unnamed/part_005 106-130): scan `c.conf[offset:]`
line by line. -/
def LookupRow (c : Conf) (keyCol : Int) (key : List Char) (ic : Bool)
    (offset : Nat) : Except Err (Row × Nat) :=
  lookupLoop c keyCol key ic (splitLines (c.conf.drop offset)) offset

/-- All rows `Conf.LookupRow` can return while scanning the given line
chunks: every line's `lineMatch` row, over the whole buffer, in order.
This is the specification-side view of the search used to state C9. -/
def keyMatchesL (c : Conf) (keyCol : Int) (key : List Char) (ic : Bool) :
    List (List Char) → Nat → List Row
  | [], _ => []
  | line :: rest, offset =>
    match lineMatch c keyCol key ic line offset with
    | some row => row :: keyMatchesL c keyCol key ic rest (offset + line.length)
    | none => keyMatchesL c keyCol key ic rest (offset + line.length)

/-- The slice `l[s:e]` of a character list at `Int` positions (used to state
the round-trip claims). -/
def sliceIv (l : List Char) (s e : Int) : List Char :=
  (l.drop s.toNat).take (e - s).toNat

theorem splitLines_join (s : List Char) : (splitLines s).flatten = s := by
  induction s with
  | nil => rfl
  | cons r rest ih =>
    simp only [splitLines]
    by_cases h : r = '\n'
    · simp [h, ih]
    · simp only [if_neg h]
      cases hs : splitLines rest with
      | nil =>
        have : rest = [] := by rw [hs] at ih; simpa using ih.symm
        simp [this]
      | cons l ls =>
        rw [hs] at ih
        simp only [List.flatten_cons] at ih ⊢
        simp [← List.append_assoc, ih]

theorem splitLines_ne_nil {s : List Char} {l : List Char}
    (h : l ∈ splitLines s) : l ≠ [] := by
  induction s generalizing l with
  | nil => simp [splitLines] at h
  | cons r rest ih =>
    simp only [splitLines] at h
    by_cases hr : r = '\n'
    · rw [if_pos hr] at h
      rcases List.mem_cons.mp h with h | h
      · simp [h]
      · exact ih h
    · rw [if_neg hr] at h
      cases hs : splitLines rest with
      | nil => rw [hs] at h; rcases List.mem_cons.mp h with h | h
               · simp [h]
               · simp at h
      | cons l' ls => rw [hs] at h; rcases List.mem_cons.mp h with h | h
                      · simp [h]
                      · exact ih (hs ▸ List.mem_cons_of_mem l' h)

theorem splitLines_drop {s l : List Char} {ls : List (List Char)}
    (h : splitLines s = l :: ls) : splitLines (s.drop l.length) = ls := by
  induction s generalizing l ls with
  | nil => simp [splitLines] at h
  | cons r rest ih =>
    simp only [splitLines] at h
    by_cases hr : r = '\n'
    · rw [if_pos hr] at h
      obtain ⟨hl, hls⟩ := List.cons.inj h
      subst hl
      simpa using hls
    · rw [if_neg hr] at h
      cases hs : splitLines rest with
      | nil =>
        rw [hs] at h
        obtain ⟨hl, hls⟩ := List.cons.inj h
        subst hl
        simpa [hs] using hls
      | cons l' ls' =>
        rw [hs] at h
        obtain ⟨hl, hls⟩ := List.cons.inj h
        subst hl hls
        simpa using ih hs

theorem splitLines_suffix {pre rest : List (List Char)} :
    ∀ {s : List Char}, splitLines s = pre ++ rest →
    splitLines rest.flatten = rest := by
  induction pre with
  | nil =>
    intro s h
    simp only [List.nil_append] at h
    rw [← h, splitLines_join]
  | cons l pre' ih =>
    intro s h
    rw [List.cons_append] at h
    exact ih (splitLines_drop h)

/-- Every chunk but possibly the last ends with a newline (bufio's
`ReadString` guarantees this of its reads). -/
def midNL : List (List Char) → Prop
  | [] => True
  | l :: rest => (rest = [] ∨ l.getLast? = some '\n') ∧ midNL rest

theorem getLast?_cons_of_ne {α : Type} {a : α} {l : List α} (h : l ≠ []) :
    (a :: l).getLast? = l.getLast? := by
  cases l with
  | nil => exact absurd rfl h
  | cons b t => simp [List.getLast?]

theorem midNL_splitLines (s : List Char) : midNL (splitLines s) := by
  induction s with
  | nil => simp [splitLines, midNL]
  | cons r rest ih =>
    simp only [splitLines]
    by_cases hr : r = '\n'
    · rw [if_pos hr]
      refine ⟨?_, ih⟩
      cases hrec : splitLines rest with
      | nil => exact Or.inl rfl
      | cons l ls => exact Or.inr (by simp [hr])
    · rw [if_neg hr]
      cases hs : splitLines rest with
      | nil => exact ⟨Or.inl rfl, trivial⟩
      | cons l ls =>
        rw [hs] at ih
        obtain ⟨h1, h2⟩ := ih
        refine ⟨?_, h2⟩
        rcases h1 with h1 | h1
        · exact Or.inl h1
        · have hne : l ≠ [] := splitLines_ne_nil (hs ▸ List.mem_cons_self l ls)
          exact Or.inr (by rw [getLast?_cons_of_ne hne]; exact h1)

theorem lineMatch_nil (c : Conf) (keyCol : Int) (key : List Char) (ic : Bool)
    (offset : Nat) : lineMatch c keyCol key ic [] offset = none := by
  simp [lineMatch, parseLine, scanLine, initState]

theorem lookupLoop_err {c : Conf} {keyCol : Int} {key : List Char} {ic : Bool}
    {lines : List (List Char)} {offset : Nat} {e : Err}
    (hnl : midNL lines)
    (h : lookupLoop c keyCol key ic lines offset = .error e) :
    keyMatchesL c keyCol key ic lines offset = [] := by
  induction lines generalizing offset with
  | nil => rfl
  | cons line rest ih =>
    simp only [lookupLoop] at h
    simp only [keyMatchesL]
    obtain ⟨h1, h2⟩ := hnl
    cases hm : lineMatch c keyCol key ic line offset with
    | some row => rw [hm] at h; exact absurd h (by simp)
    | none =>
      rw [hm] at h
      by_cases hnl' : line.getLast? = some '\n'
      · rw [if_pos hnl'] at h
        exact ih h2 h
      · rcases h1 with h1 | h1
        · subst h1; rfl
        · exact absurd h1 hnl'

theorem lookupLoop_ok {c : Conf} {keyCol : Int} {key : List Char} {ic : Bool}
    {lines : List (List Char)} {offset : Nat} {row : Row} {off' : Nat}
    (h : lookupLoop c keyCol key ic lines offset = .ok (row, off')) :
    ∃ pre rest, lines = pre ++ rest ∧ off' = offset + pre.flatten.length ∧
      offset < off' ∧
      keyMatchesL c keyCol key ic lines offset =
        row :: keyMatchesL c keyCol key ic rest off' := by
  induction lines generalizing offset with
  | nil => exact absurd h (by simp [lookupLoop])
  | cons line rest ih =>
    simp only [lookupLoop] at h
    cases hm : lineMatch c keyCol key ic line offset with
    | some row' =>
      rw [hm] at h
      obtain ⟨hrow, hoff⟩ : row' = row ∧ offset + line.length = off' := by
        simpa using h
      have hne : line ≠ [] := by
        intro he; rw [he, lineMatch_nil] at hm; exact absurd hm (by simp)
      refine ⟨[line], rest, by simp, ?_, ?_, ?_⟩
      · simp [← hoff]
      · have : 0 < line.length := List.length_pos.mpr hne
        omega
      · simp only [keyMatchesL, hm, hrow, hoff]
    | none =>
      rw [hm] at h
      by_cases hnl' : line.getLast? = some '\n'
      · rw [if_pos hnl'] at h
        obtain ⟨pre', rest', hdec, hoff, hlt, hkm⟩ := ih h
        have hne : line ≠ [] := by
          intro he; rw [he] at hnl'; exact absurd hnl' (by simp)
        refine ⟨line :: pre', rest', by rw [List.cons_append, hdec], ?_, ?_, ?_⟩
        · simp only [List.flatten_cons, List.length_append]
          omega
        · have : 0 < line.length := List.length_pos.mpr hne
          omega
        · simp only [keyMatchesL, hm]
          exact hkm
      · rw [if_neg hnl'] at h
        exact absurd h (by simp)

theorem LookupRow_ok_bounds {c : Conf} {keyCol : Int} {key : List Char}
    {ic : Bool} {offset : Nat} {row : Row} {off' : Nat}
    (h : LookupRow c keyCol key ic offset = .ok (row, off')) :
    offset < off' ∧ off' ≤ c.conf.length := by
  obtain ⟨pre, rest, hdec, hoff, hlt, -⟩ := lookupLoop_ok h
  have hjoin : (splitLines (c.conf.drop offset)).flatten = c.conf.drop offset :=
    splitLines_join _
  have hlen : pre.flatten.length + rest.flatten.length = c.conf.length - offset := by
    have := congrArg List.length hjoin
    rw [hdec] at this
    simp only [List.flatten_append, List.length_append, List.length_drop] at this
    omega
  omega

/-- The loop of `conf.Conf.LookupKey` (src/conf/conf.go 77-88): repeatedly
`LookupRow(keyCol = 0, key, ignoreCase = true, offset)`, remembering the
last row that has the value column (column 1), until the lookup fails. -/
def lookupKeyLoop (c : Conf) (key : List Char) (best : Option Row)
    (offset : Nat) : Option Row :=
  match h : LookupRow c 0 key true offset with
  | .error _ => best
  | .ok (r, nextOffset) =>
    lookupKeyLoop c key (if r.HasColumn 1 then some r else best) nextOffset
termination_by c.conf.length + 1 - offset
decreasing_by
  have := LookupRow_ok_bounds h
  omega

/-- `conf.Conf.LookupKey` (src/conf/conf.go 75-93). -/
def LookupKey (c : Conf) (key : List Char) : Except Err Row :=
  match lookupKeyLoop c key none 0 with
  | some r => .ok r
  | none => .error .keyNotFound

/-! ### Invariants of the line scanner -/

/-- Invariant of `parseLine`'s loop state after the characters of indices
`< bound` have been seen: `pos` and `start` are the sentinel or lie in the
scanned window, `end` is always the sentinel (the code resets it in the same
iteration that sets it), and every emitted token is a non-empty in-window
range. -/
def ScanInv (offset : Nat) (bound : Nat) (st : ScanState) : Prop :=
  (st.pos = -1 ∨ ((offset : Int) ≤ st.pos ∧ st.pos < (offset : Int) + bound)) ∧
  (st.start = -1 ∨ ((offset : Int) ≤ st.start ∧ st.start ≤ st.pos)) ∧
  st.endPos = -1 ∧
  (∀ t ∈ st.tokens,
    (offset : Int) ≤ t.Start ∧ t.Start < t.End ∧ t.End ≤ (offset : Int) + bound)

theorem ScanInv.mono {offset b b' : Nat} {st : ScanState}
    (h : ScanInv offset b st) (hb : b ≤ b') : ScanInv offset b' st := by
  obtain ⟨h1, h2, h3, h4⟩ := h
  refine ⟨?_, h2, h3, ?_⟩
  · rcases h1 with h1 | h1
    · exact Or.inl h1
    · exact Or.inr ⟨h1.1, by omega⟩
  · intro t ht
    obtain ⟨ha, hb', hc⟩ := h4 t ht
    exact ⟨ha, hb', by omega⟩

theorem scanStep_inv {p : Params} {offset : Nat} {st : ScanState} {i : Nat}
    {r : Char} (h : ScanInv offset i st) :
    ScanInv offset (i + 1) (scanStep p offset st i r) := by
  obtain ⟨h1, h2, h3, h4⟩ := h
  simp only [ScanInv, scanStep]
  by_cases hs : st.start > -1
  · rw [if_pos hs]
    have hse : (offset : Int) ≤ st.start ∧ st.start ≤ st.pos := by
      rcases h2 with h2 | h2
      · omega
      · exact h2
    have hpos : (offset : Int) ≤ st.pos ∧ st.pos < (offset : Int) + i := by
      rcases h1 with h1 | h1
      · omega
      · exact h1
    by_cases hw : (p.Whitespace.contains r && !(if
        st.expectedQuote.contains r &&
          (!p.BackslashEscapedQuotes || !(st.lastRune == '\\')) then
        !st.insideQuote else st.insideQuote)) = true
    · rw [if_pos hw]
      dsimp only
      refine ⟨Or.inr ⟨by omega, by omega⟩, Or.inl rfl, rfl, ?_⟩
      intro t ht
      rcases List.mem_append.mp ht with ht | ht
      · obtain ⟨ha, hb', hc⟩ := h4 t ht
        exact ⟨ha, hb', by omega⟩
      · rcases List.mem_singleton.mp ht with rfl
        refine ⟨hse.1, ?_, ?_⟩
        · dsimp only; omega
        · dsimp only; omega
    · rw [if_neg hw]
      dsimp only
      refine ⟨Or.inr ⟨by omega, by omega⟩, Or.inr ⟨hse.1, by omega⟩, h3, ?_⟩
      intro t ht
      obtain ⟨ha, hb', hc⟩ := h4 t ht
      exact ⟨ha, hb', by omega⟩
  · rw [if_neg hs]
    by_cases hw : p.Whitespace.contains r = true
    · rw [if_pos hw]
      dsimp only
      refine ⟨Or.inr ⟨by omega, by omega⟩, ?_, h3, ?_⟩
      · rcases h2 with h2 | h2
        · exact Or.inl h2
        · exact Or.inr ⟨h2.1, by omega⟩
      · intro t ht
        obtain ⟨ha, hb', hc⟩ := h4 t ht
        exact ⟨ha, hb', by omega⟩
    · rw [if_neg hw]
      dsimp only
      refine ⟨Or.inr ⟨by omega, by omega⟩, Or.inr ⟨by omega, by omega⟩, h3, ?_⟩
      intro t ht
      obtain ⟨ha, hb', hc⟩ := h4 t ht
      exact ⟨ha, hb', by omega⟩

theorem scanLine_inv {p : Params} {offset : Nat} :
    ∀ (rest : List Char) (i : Nat) (st : ScanState), ScanInv offset i st →
    ScanInv offset (i + rest.length) (scanLine p offset rest i st) := by
  intro rest
  induction rest with
  | nil => intro i st h; simpa using h
  | cons r rest ih =>
    intro i st h
    simp only [scanLine]
    by_cases hstop : scanStop p r = true
    · rw [if_pos hstop]
      exact h.mono (by simp only [List.length_cons]; omega)
    · rw [if_neg hstop]
      have := ih (i + 1) (scanStep p offset st i r) (scanStep_inv h)
      refine this.mono ?_
      simp only [List.length_cons]
      omega

theorem initState_inv (p : Params) (offset : Nat) :
    ScanInv offset 0 (initState p) := by
  refine ⟨Or.inl rfl, Or.inl rfl, rfl, ?_⟩
  intro t ht
  simp [initState] at ht

/-- The bounds of every token of a successfully parsed row (body of claim
C10, shared by several claims). -/
theorem parseLine_ok_bounds {c : Conf} {line : List Char} {offset : Nat}
    {row : Row} (h : parseLine c line offset = .ok row) :
    ∀ t ∈ row.tokens, (offset : Int) ≤ t.Start ∧ t.Start < t.End ∧
      t.End ≤ (offset : Int) + line.length := by
  have hinv : ScanInv offset line.length
      (scanLine c.params offset line 0 (initState c.params)) := by
    simpa using scanLine_inv line 0 (initState c.params) (initState_inv c.params offset)
  set st := scanLine c.params offset line 0 (initState c.params) with hst
  obtain ⟨h1, h2, h3, h4⟩ := hinv
  simp only [parseLine, ← hst] at h
  by_cases hfin : (st.start > -1 && st.endPos == -1) = true
  · rw [if_pos hfin] at h
    by_cases herr : (st.start == -1 &&
        (st.tokens ++ [Token.mk st.start (st.pos + 1)]).length == 0) = true
    · rw [if_pos herr] at h; exact absurd h (by simp)
    · rw [if_neg herr] at h
      have hrow : row.tokens = st.tokens ++ [Token.mk st.start (st.pos + 1)] := by
        have := h; injection this with h'; rw [← h']
      intro t ht
      rw [hrow] at ht
      rcases List.mem_append.mp ht with ht | ht
      · exact h4 t ht
      · rcases List.mem_singleton.mp ht with rfl
        simp only [Bool.and_eq_true, decide_eq_true_eq, beq_iff_eq] at hfin
        have hse : (offset : Int) ≤ st.start ∧ st.start ≤ st.pos := by
          rcases h2 with h2 | h2
          · omega
          · exact h2
        have hpos : (offset : Int) ≤ st.pos ∧
            st.pos < (offset : Int) + line.length := by
          rcases h1 with h1 | h1
          · omega
          · exact h1
        refine ⟨?_, ?_, ?_⟩
        · dsimp only; omega
        · dsimp only; omega
        · dsimp only; omega
  · rw [if_neg hfin] at h
    by_cases herr : (st.start == -1 && st.tokens.length == 0) = true
    · rw [if_pos herr] at h; exact absurd h (by simp)
    · rw [if_neg herr] at h
      have hrow : row.tokens = st.tokens := by
        have := h; injection this with h'; rw [← h']
      intro t ht
      exact h4 t (hrow ▸ ht)

theorem Row.Token_ok_mem {row : Row} {col : Int}
    (h : row.HasColumn col = true) :
    ∃ t, row.Token col = .ok t ∧ t ∈ row.tokens := by
  rw [Row.Token, dif_pos h]
  exact ⟨_, rfl, List.get_mem _ _ _⟩

theorem valueSize_ok {t : Token} (h0 : (0:Int) ≤ t.Start)
    (hlt : t.Start < t.End) : t.ValueSize = .ok (t.End - t.Start) := by
  rw [Token.ValueSize, if_neg (by omega), if_neg (by omega), if_neg (by omega)]

theorem Raw_ok_of_bounds {c : Conf} {row : Row} {col : Int} {t : Token}
    (ht : row.Token col = .ok t) (h0 : (0:Int) ≤ t.Start)
    (hlt : t.Start < t.End) :
    Raw c row col = .ok (sliceIv c.conf t.Start t.End) := by
  simp only [Raw, ht, valueSize_ok h0 hlt]
  rw [if_neg (show ¬ (t.End - t.Start ≤ 0) by omega)]
  rfl

theorem SetRaw_ok_of_bounds {c : Conf} {row : Row} {col : Int} {t : Token}
    {v : List Char} (ht : row.Token col = .ok t) (h0 : (0:Int) ≤ t.Start)
    (hlt : t.Start < t.End) :
    SetRaw c row col v =
      .ok (c.conf.take t.Start.toNat ++ v ++ c.conf.drop t.End.toNat) := by
  simp only [SetRaw, ht, valueSize_ok h0 hlt]
  rw [if_neg (show ¬ (t.End - t.Start ≤ 0) by omega)]
  have h : t.Start + (t.End - t.Start) = t.End := by ring
  rw [h]

/-- C10.  Every token of a freshly parsed row lies inside the parsed line's
window `[offset, offset + |line|)` with a strictly positive size, its
`ValueSize` computes that size, and `Raw`/`SetRaw` on any column the row
reports succeed (never reaching the `size <= 0` error branch). -/
theorem parseLine_token_invariants (c : Conf) (line : List Char) (offset : Nat)
    (row : Row) (h : parseLine c line offset = .ok row) :
    (∀ t ∈ row.tokens, (offset : Int) ≤ t.Start ∧ t.Start < t.End ∧
       t.End ≤ (offset : Int) + line.length) ∧
    (∀ t ∈ row.tokens, t.ValueSize = .ok (t.End - t.Start) ∧
       0 < t.End - t.Start) ∧
    (∀ col, row.HasColumn col = true →
       (∃ s, Raw c row col = .ok s) ∧ ∀ v, ∃ s, SetRaw c row col v = .ok s) := by
  have hb := parseLine_ok_bounds h
  refine ⟨hb, ?_, ?_⟩
  · intro t ht
    obtain ⟨h1, h2, h3⟩ := hb t ht
    exact ⟨valueSize_ok (by omega) h2, by omega⟩
  · intro col hcol
    obtain ⟨t, htok, hmem⟩ := Row.Token_ok_mem hcol
    obtain ⟨h1, h2, h3⟩ := hb t hmem
    refine ⟨⟨_, Raw_ok_of_bounds htok (by omega) h2⟩, ?_⟩
    intro v
    exact ⟨_, SetRaw_ok_of_bounds htok (by omega) h2⟩

/-- Witness for C10 at a concrete input: the line `"a b\n"` parsed at
offset 2 of the buffer `"x\na b\n"`. -/
theorem parseLine_token_invariants_witness :
    parseLine ⟨"x\na b\n".data, confNewParams⟩ "a b\n".data 2 =
      .ok ⟨[⟨2, 3⟩, ⟨4, 5⟩]⟩ ∧
    (∀ t ∈ (Row.mk [⟨2, 3⟩, ⟨4, 5⟩]).tokens,
      (2 : Int) ≤ t.Start ∧ t.Start < t.End ∧
      t.End ≤ (2 : Int) + ("a b\n".data).length) := by
  refine ⟨rfl, ?_⟩
  exact (parseLine_token_invariants ⟨"x\na b\n".data, confNewParams⟩
    "a b\n".data 2 ⟨[⟨2, 3⟩, ⟨4, 5⟩]⟩ rfl).1

theorem sliceIv_append {pre line post : List Char} {s e : Int}
    (h1 : (pre.length : Int) ≤ s) (h2 : s ≤ e)
    (h3 : e ≤ (pre.length : Int) + line.length) :
    sliceIv (pre ++ line ++ post) s e =
      sliceIv line (s - pre.length) (e - pre.length) := by
  have hk : s.toNat = pre.length + (s - pre.length).toNat := by omega
  have hsz : (e - s).toNat = ((e - pre.length) - (s - pre.length)).toNat := by
    omega
  rw [sliceIv, sliceIv, hk, hsz, List.append_assoc, List.drop_append,
    List.drop_append_of_le_length (by omega),
    List.take_append_of_le_length (by simp only [List.length_drop]; omega)]

/-- C1.  Round-trip: parse a line lying at offset `|pre|` of the buffer
`pre ++ line ++ post`; for every column the row reports, `Raw` succeeds and
returns exactly the buffer's substring covered by that column's token —
which is the corresponding substring of the original line, quotes
included. -/
theorem raw_roundtrip (p : Params) (pre line post : List Char) (row : Row)
    (col : Int)
    (hrow : parseLine ⟨pre ++ line ++ post, p⟩ line pre.length = .ok row)
    (hcol : row.HasColumn col = true) :
    ∃ t, row.Token col = .ok t ∧
      Raw ⟨pre ++ line ++ post, p⟩ row col =
        .ok (sliceIv (pre ++ line ++ post) t.Start t.End) ∧
      sliceIv (pre ++ line ++ post) t.Start t.End =
        sliceIv line (t.Start - pre.length) (t.End - pre.length) := by
  obtain ⟨t, htok, hmem⟩ := Row.Token_ok_mem hcol
  obtain ⟨h1, h2, h3⟩ := parseLine_ok_bounds hrow t hmem
  exact ⟨t, htok, Raw_ok_of_bounds htok (by omega) h2,
    sliceIv_append h1 (by omega) h3⟩

/-- Witness for C1: buffer `"x\nkey = val\nz\n"`, line `"key = val\n"` at
offset 2, column 1 (`"val"`). -/
theorem raw_roundtrip_witness :
    ∃ t, (Row.mk [⟨2, 5⟩, ⟨8, 11⟩]).Token 1 = .ok t ∧
      Raw ⟨"x\nkey = val\nz\n".data, confNewParams⟩ ⟨[⟨2, 5⟩, ⟨8, 11⟩]⟩ 1 =
        .ok (sliceIv "x\nkey = val\nz\n".data t.Start t.End) ∧
      sliceIv "x\nkey = val\nz\n".data t.Start t.End =
        sliceIv "key = val\n".data (t.Start - ("x\n".data).length)
          (t.End - ("x\n".data).length) := by
  have h := raw_roundtrip confNewParams "x\n".data "key = val\n".data "z\n".data
    ⟨[⟨2, 5⟩, ⟨8, 11⟩]⟩ 1 rfl rfl
  simpa using h

/-! ### Empty-line characterization and comment truncation -/

theorem scanLine_all_ws {p : Params} {offset : Nat} :
    ∀ (rest : List Char) (i : Nat) (st : ScanState),
    st.start = -1 → st.tokens = [] →
    (∀ r ∈ rest.takeWhile (fun ch => !scanStop p ch),
       p.Whitespace.contains r = true) →
    (scanLine p offset rest i st).start = -1 ∧
    (scanLine p offset rest i st).tokens = [] := by
  intro rest
  induction rest with
  | nil => intro i st h1 h2 _; exact ⟨h1, h2⟩
  | cons r rest ih =>
    intro i st h1 h2 hws
    simp only [scanLine]
    by_cases hstop : scanStop p r = true
    · rw [if_pos hstop]; exact ⟨h1, h2⟩
    · rw [if_neg hstop]
      rw [List.takeWhile_cons_of_pos (by simp [hstop])] at hws
      have hr : p.Whitespace.contains r = true := hws r (List.mem_cons_self _ _)
      have hstep : scanStep p offset st i r =
          { st with pos := (offset : Int) + i } := by
        simp only [scanStep]
        rw [if_neg (by omega), if_pos hr]
      rw [hstep]
      exact ih (i + 1) _ h1 h2 (fun x hx => hws x (List.mem_cons_of_mem _ hx))

theorem scanLine_nonempty {p : Params} {offset : Nat} :
    ∀ (rest : List Char) (i : Nat) (st : ScanState),
    (st.start > -1 ∨ st.tokens ≠ [] ∨
      ¬ (∀ r ∈ rest.takeWhile (fun ch => !scanStop p ch),
           p.Whitespace.contains r = true)) →
    ((scanLine p offset rest i st).start > -1 ∨
     (scanLine p offset rest i st).tokens ≠ []) := by
  intro rest
  induction rest with
  | nil =>
    intro i st h
    rcases h with h | h | h
    · exact Or.inl h
    · exact Or.inr h
    · exact absurd (by intro r hr; simp at hr) h
  | cons r rest ih =>
    intro i st h
    simp only [scanLine]
    by_cases hstop : scanStop p r = true
    · rw [if_pos hstop]
      rcases h with h | h | h
      · exact Or.inl h
      · exact Or.inr h
      · rw [List.takeWhile_cons, hstop] at h
        exact absurd (by intro r hr; simp at hr) h
    · rw [if_neg hstop]
      apply ih
      by_cases hs : st.start > -1
      · by_cases hw : (p.Whitespace.contains r && !(if
            st.expectedQuote.contains r &&
              (!p.BackslashEscapedQuotes || !(st.lastRune == '\\')) then
            !st.insideQuote else st.insideQuote)) = true
        · refine Or.inr (Or.inl ?_)
          simp only [scanStep]
          rw [if_pos hs, if_pos hw]
          simp
        · refine Or.inl ?_
          simp only [scanStep]
          rw [if_pos hs, if_neg hw]
          exact hs
      · by_cases hw : p.Whitespace.contains r = true
        · have hstep : scanStep p offset st i r =
              { st with pos := (offset : Int) + i } := by
            simp only [scanStep]
            rw [if_neg hs, if_pos hw]
          rw [hstep]
          rcases h with h | h | h
          · exact absurd h hs
          · exact Or.inr (Or.inl h)
          · refine Or.inr (Or.inr ?_)
            intro hall
            apply h
            rw [List.takeWhile_cons_of_pos (by simp [hstop])]
            intro x hx
            rcases List.mem_cons.mp hx with rfl | hx
            · exact hw
            · exact hall x hx
        · refine Or.inl ?_
          simp only [scanStep]
          rw [if_neg hs, if_neg hw]
          simp only [gt_iff_lt]
          omega

/-- C7.  `parseLine` fails (necessarily with `EmptyLine`) exactly when every
character of the line before the first comment character or newline is
whitespace; any successful parse carries at least one token. -/
theorem parseLine_emptyLine_characterization (c : Conf) (line : List Char)
    (offset : Nat) :
    (parseLine c line offset = .error .emptyLine ↔
      ∀ r ∈ line.takeWhile (fun ch => !scanStop c.params ch),
        c.params.Whitespace.contains r = true) ∧
    (∀ e, parseLine c line offset = .error e → e = .emptyLine) ∧
    (∀ row, parseLine c line offset = .ok row → 1 ≤ row.ColCount) := by
  have hinv : ScanInv offset line.length
      (scanLine c.params offset line 0 (initState c.params)) := by
    simpa using scanLine_inv line 0 (initState c.params)
      (initState_inv c.params offset)
  set st := scanLine c.params offset line 0 (initState c.params) with hst
  refine ⟨⟨?_, ?_⟩, ?_, ?_⟩
  · intro herr
    by_contra hws
    have hne : st.start > -1 ∨ st.tokens ≠ [] := by
      rw [hst]
      exact scanLine_nonempty line 0 (initState c.params)
        (Or.inr (Or.inr hws))
    simp only [parseLine, ← hst] at herr
    rcases hne with hne | hne
    · rw [if_neg (by simp only [Bool.and_eq_true, beq_iff_eq]; omega)] at herr
      exact absurd herr (by simp)
    · by_cases hfin : (st.start > -1 && st.endPos == -1) = true
      · rw [if_pos hfin,
          if_neg (by simp only [Bool.and_eq_true, beq_iff_eq,
            List.length_eq_zero]; rintro ⟨-, hcontra⟩; simp at hcontra)] at herr
        exact absurd herr (by simp)
      · rw [if_neg hfin,
          if_neg (by simp only [Bool.and_eq_true, beq_iff_eq,
            List.length_eq_zero]; intro hcontra; exact hne hcontra.2)] at herr
        exact absurd herr (by simp)
  · intro hws
    have hend : st.start = -1 ∧ st.tokens = [] := by
      rw [hst]
      exact scanLine_all_ws line 0 (initState c.params) rfl rfl hws
    simp only [parseLine, ← hst]
    have htks : (if decide (st.start > -1) && (st.endPos == -1) then
        st.tokens ++ [Token.mk st.start (st.pos + 1)] else st.tokens) =
        st.tokens :=
      if_neg (by simp only [Bool.and_eq_true, decide_eq_true_eq]; rintro ⟨hc, -⟩; omega)
    rw [htks, if_pos (by simp [hend.1, hend.2])]
  · intro e herr
    simp only [parseLine, ← hst] at herr
    by_cases hfin : (st.start > -1 && st.endPos == -1) = true
    · rw [if_pos hfin] at herr
      by_cases hz : (st.start == -1 &&
          (st.tokens ++ [Token.mk st.start (st.pos + 1)]).length == 0) = true
      · rw [if_pos hz] at herr
        injection herr with h'
        exact h'.symm
      · rw [if_neg hz] at herr
        exact absurd herr (by simp)
    · rw [if_neg hfin] at herr
      by_cases hz : (st.start == -1 && st.tokens.length == 0) = true
      · rw [if_pos hz] at herr
        injection herr with h'
        exact h'.symm
      · rw [if_neg hz] at herr
        exact absurd herr (by simp)
  · intro row hok
    simp only [parseLine, ← hst] at hok
    by_cases hfin : (st.start > -1 && st.endPos == -1) = true
    · rw [if_pos hfin] at hok
      by_cases hz : (st.start == -1 &&
          (st.tokens ++ [Token.mk st.start (st.pos + 1)]).length == 0) = true
      · rw [if_pos hz] at hok; exact absurd hok (by simp)
      · rw [if_neg hz] at hok
        injection hok with h'
        rw [Row.ColCount, ← h']
        simp
    · rw [if_neg hfin] at hok
      by_cases hz : (st.start == -1 && st.tokens.length == 0) = true
      · rw [if_pos hz] at hok; exact absurd hok (by simp)
      · rw [if_neg hz] at hok
        injection hok with h'
        rw [Row.ColCount, ← h']
        dsimp only
        simp only [Bool.and_eq_true, beq_iff_eq, Nat.beq_eq_true_eq] at hz
        by_cases hs0 : st.start = -1
        · have hlen : st.tokens.length ≠ 0 :=
            fun hc => hz ⟨by simp [hs0], by simp [hc]⟩
          omega
        · exfalso
          apply hfin
          simp only [Bool.and_eq_true, beq_iff_eq, decide_eq_true_eq]
          refine ⟨?_, hinv.2.2.1⟩
          rcases hinv.2.1 with h2 | h2
          · exact absurd h2 hs0
          · omega

/-- Witness for C7: an all-whitespace-and-comment line fails with
`EmptyLine`, and a one-key line yields one token. -/
theorem parseLine_emptyLine_characterization_witness :
    parseLine ⟨"   # x\n".data, confNewParams⟩ "   # x\n".data 0 =
      .error .emptyLine ∧
    1 ≤ (Row.mk [⟨0, 1⟩]).ColCount := by
  constructor
  · exact (parseLine_emptyLine_characterization ⟨"   # x\n".data, confNewParams⟩
      "   # x\n".data 0).1.mpr (by decide)
  · exact (parseLine_emptyLine_characterization ⟨"a\n".data, confNewParams⟩
      "a\n".data 0).2.2 ⟨[⟨0, 1⟩]⟩ rfl

theorem scanLine_trunc {p : Params} {offset : Nat} :
    ∀ (rest : List Char) (i : Nat) (st : ScanState),
    scanLine p offset rest i st =
      scanLine p offset (rest.takeWhile (fun ch => !scanStop p ch)) i st := by
  intro rest
  induction rest with
  | nil => intro i st; rfl
  | cons r rest ih =>
    intro i st
    by_cases hstop : scanStop p r = true
    · rw [List.takeWhile_cons, hstop]
      simp only [scanLine, if_pos hstop]
    · rw [List.takeWhile_cons_of_pos (by simp [hstop])]
      simp only [scanLine, if_neg hstop]
      exact ih (i + 1) _

/-- C4.  The scan of `parseLine` stops at the first inline-comment character
or newline unconditionally — the whole parse only ever sees the prefix of
the line before that character, whatever the quote state there, so a comment
character inside a quoted value still ends the scan. -/
theorem parseLine_stops_at_comment (c : Conf) (line : List Char)
    (offset : Nat) :
    parseLine c line offset =
      parseLine c (line.takeWhile (fun ch => !scanStop c.params ch)) offset := by
  simp only [parseLine]
  rw [← scanLine_trunc]

/-! ### Splice framing, dequoting, and the quoting law -/

theorem valueSize_ok_inv {t : Token} {sz : Int} (h : t.ValueSize = .ok sz) :
    sz = t.End - t.Start ∧ t.Start ≤ t.End ∧ t.Start ≠ -1 ∧ t.End ≠ -1 := by
  rw [Token.ValueSize] at h
  by_cases h1 : t.Start = -1
  · rw [if_pos h1] at h; exact absurd h (by simp)
  · rw [if_neg h1] at h
    by_cases h2 : t.End = -1
    · rw [if_pos h2] at h; exact absurd h (by simp)
    · rw [if_neg h2] at h
      by_cases h3 : t.Start > t.End
      · rw [if_pos h3] at h; exact absurd h (by simp)
      · rw [if_neg h3] at h
        injection h with h'
        exact ⟨h'.symm, by omega, h1, h2⟩

/-- C2.  A successful `SetRaw` splices the new value over exactly the
token's byte range `[Start, End)`: the result is
`conf[:Start] ++ value ++ conf[End:]`, so every byte before `Start` is
unchanged in place, and every byte from `End` on reappears unchanged after
the spliced value.  (In Go a token out of the buffer's range panics rather
than returning, hence the range hypotheses.) -/
theorem setRaw_frame (c : Conf) (row : Row) (col : Int) (v out : List Char)
    (t : Token) (hset : SetRaw c row col v = .ok out)
    (htok : row.Token col = .ok t) (h0 : (0 : Int) ≤ t.Start)
    (hin : t.End ≤ (c.conf.length : Int)) :
    out = c.conf.take t.Start.toNat ++ v ++ c.conf.drop t.End.toNat ∧
    out.take t.Start.toNat = c.conf.take t.Start.toNat ∧
    out.drop (t.Start.toNat + v.length) = c.conf.drop t.End.toNat := by
  rw [SetRaw, htok] at hset
  dsimp only at hset
  cases hvs : t.ValueSize with
  | error e => rw [hvs] at hset; exact absurd hset (by simp)
  | ok sz =>
    rw [hvs] at hset
    dsimp only at hset
    obtain ⟨hsz, hle, -, -⟩ := valueSize_ok_inv hvs
    by_cases hpos : sz ≤ 0
    · rw [if_pos hpos] at hset; exact absurd hset (by simp)
    · rw [if_neg hpos] at hset
      injection hset with h'
      have hsum : (t.Start + sz).toNat = t.End.toNat := by omega
      have hout : out = c.conf.take t.Start.toNat ++ v ++
          c.conf.drop t.End.toNat := by rw [← h', hsum]
      refine ⟨hout, ?_, ?_⟩
      · rw [hout]
        have hlen : t.Start.toNat ≤ (c.conf.take t.Start.toNat).length := by
          simp only [List.length_take]
          omega
        rw [List.append_assoc, List.take_append_of_le_length hlen,
          List.take_take, Nat.min_self]
      · rw [hout]
        have hlen : (c.conf.take t.Start.toNat ++ v).length =
            t.Start.toNat + v.length := by
          simp only [List.length_append, List.length_take]
          omega
        rw [← hlen, List.drop_left]

/-- Witness for C2: replacing column 1 of `"key = val\nx\n"` with `"12"`. -/
theorem setRaw_frame_witness :
    SetRaw ⟨"key = val\nx\n".data, confNewParams⟩ ⟨[⟨0, 3⟩, ⟨6, 9⟩]⟩ 1
        "12".data = .ok "key = 12\nx\n".data ∧
    "key = 12\nx\n".data.take 6 = "key = val\nx\n".data.take 6 ∧
    "key = 12\nx\n".data.drop 8 = "key = val\nx\n".data.drop 9 := by
  refine ⟨rfl, ?_, ?_⟩
  · exact (setRaw_frame ⟨"key = val\nx\n".data, confNewParams⟩
      ⟨[⟨0, 3⟩, ⟨6, 9⟩]⟩ 1 "12".data "key = 12\nx\n".data ⟨6, 9⟩
      rfl rfl (by decide) (by decide)).2.1
  · exact (setRaw_frame ⟨"key = val\nx\n".data, confNewParams⟩
      ⟨[⟨0, 3⟩, ⟨6, 9⟩]⟩ 1 "12".data "key = 12\nx\n".data ⟨6, 9⟩
      rfl rfl (by decide) (by decide)).2.2

/-- C5.  `Dequote` passes a value through unchanged unless its first
character is a recognized quote matched by its last character, and in the
stripping case unescapes doubled quotes and (in the built-in dialects)
backslash-escaped quotes: on the postgresql.conf dialect the raw value
`'"$user", ''public'', \'other\''` dequotes to `"$user", 'public', 'other'`. -/
theorem dequote_strips_and_unescapes :
    (∀ (c : Conf) (ch : Char) (rest : List Char),
       c.params.Quotes.contains ch = false →
       Dequote c (ch :: rest) = ch :: rest) ∧
    (∀ (c : Conf) (ch : Char) (rest : List Char),
       ¬ ((ch :: rest).getLast? = some ch) →
       Dequote c (ch :: rest) = ch :: rest) ∧
    Dequote ⟨[], confNewParams⟩ "'\"$user\", ''public'', \\'other\\''".data =
      "\"$user\", 'public', 'other'".data := by
  refine ⟨?_, ?_, by decide⟩
  · intro c ch rest hq
    rw [Dequote]
    by_cases hlen : (ch :: rest).length < 2
    · rw [if_pos hlen]
    · rw [if_neg hlen]
      exact if_pos (by intro hc; rw [hq] at hc; exact absurd hc (by simp))
  · intro c ch rest hlast
    rw [Dequote]
    by_cases hlen : (ch :: rest).length < 2
    · rw [if_pos hlen]
    · rw [if_neg hlen]
      by_cases hq : c.params.Quotes.contains ch = true
      · rw [if_neg (not_not_intro hq), if_pos hlast]
      · exact if_pos hq

/-- Witness for C5's pass-through clauses: `abc` has no leading quote, and
`'ab` has mismatched outer characters; both dequote to themselves. -/
theorem dequote_strips_and_unescapes_witness :
    Dequote ⟨[], confNewParams⟩ "abc".data = "abc".data ∧
    Dequote ⟨[], confNewParams⟩ "'ab".data = "'ab".data := by
  constructor
  · exact dequote_strips_and_unescapes.1 ⟨[], confNewParams⟩ 'a' "bc".data
      (by decide)
  · exact dequote_strips_and_unescapes.2.1 ⟨[], confNewParams⟩ '\'' "ab".data
      (by decide)

theorem isPrefixOf_subset {old l : List Char}
    (h : old.isPrefixOf l = true) : ∀ x ∈ old, x ∈ l := by
  induction old generalizing l with
  | nil => intro x hx; cases hx
  | cons a as ih =>
    cases l with
    | nil => simp [List.isPrefixOf] at h
    | cons b bs =>
      simp only [List.isPrefixOf, Bool.and_eq_true, beq_iff_eq] at h
      intro x hx
      rcases List.mem_cons.mp hx with rfl | hx
      · rw [h.1]; exact List.mem_cons_self _ _
      · exact List.mem_cons_of_mem _ (ih h.2 x hx)

theorem goReplaceAux_not_mem {old new : List Char} {q : Char} (hq : q ∈ old) :
    ∀ (fuel : Nat) (s : List Char), q ∉ s → goReplaceAux fuel s old new = s := by
  intro fuel
  induction fuel with
  | zero => intro s _; rfl
  | succ n ih =>
    intro s hs
    cases s with
    | nil => rfl
    | cons ch rest =>
      rw [goReplaceAux, if_neg, ih rest (fun hc => hs (List.mem_cons_of_mem _ hc))]
      intro hp
      exact hs (isPrefixOf_subset hp q hq)

theorem goReplace_not_mem {s old new : List Char} {q : Char} (hq : q ∈ old)
    (hs : q ∉ s) : goReplace s old new = s := by
  rw [goReplace]
  by_cases ho : old = []
  · rw [if_pos ho]
  · rw [if_neg ho]
    exact goReplaceAux_not_mem hq s.length s hs

/-- C6.  The quoting law: for any value containing none of the dialect's
quote characters (the default write quote among them) and none of its
whitespace characters, `Dequote (Quote value) = value`. -/
theorem dequote_quote_id (c : Conf) (v : List Char)
    (hq : c.params.DefaultQuote ∈ c.params.Quotes)
    (hnoq : ∀ ch ∈ v, ch ∉ c.params.Quotes)
    (hnow : ∀ ch ∈ v, ch ∉ c.params.Whitespace) :
    Dequote c (Quote c v) = v := by
  set q := c.params.DefaultQuote with hqdef
  have hqv : q ∉ v := fun h => hnoq q h hq
  have hesc : EscapeQuotes v q = v :=
    goReplace_not_mem (List.mem_singleton.mpr rfl) hqv
  have hQ : Quote c v = q :: (v ++ [q]) := by rw [Quote, ← hqdef, hesc]
  rw [hQ, Dequote]
  rw [if_neg (by simp only [List.length_cons, List.length_append,
    List.length_nil]; omega)]
  rw [if_neg (not_not_intro (List.elem_eq_true_of_mem hq)),
    if_neg (not_not_intro (by
      rw [getLast?_cons_of_ne (by simp), List.getLast?_concat]))]
  have hlen2 : (q :: (v ++ [q])).length - 2 = v.length := by
    simp only [List.length_cons, List.length_append, List.length_nil]
    omega
  have hdrop : ((q :: (v ++ [q])).drop 1).take ((q :: (v ++ [q])).length - 2)
      = v := by
    rw [hlen2]
    simp only [List.drop_succ_cons, List.drop_zero]
    exact List.take_left v [q]
  rw [hdrop, UnescapeQuotes,
    goReplace_not_mem (List.mem_cons_self _ _) hqv]
  by_cases hbs : c.params.BackslashEscapedQuotes = true
  · rw [if_pos hbs,
      goReplace_not_mem (List.mem_cons_of_mem _ (List.mem_singleton.mpr rfl)) hqv]
  · rw [if_neg hbs]

/-- Witness for C6 on the postgresql.conf dialect and the value `abc`. -/
theorem dequote_quote_id_witness :
    Dequote ⟨[], confNewParams⟩ (Quote ⟨[], confNewParams⟩ "abc".data) =
      "abc".data :=
  dequote_quote_id ⟨[], confNewParams⟩ "abc".data (by decide) (by decide)
    (by decide)

/-! ### Boolean parsing and the error behaviour of `Raw` -/

theorem isPrefixOf_head {a : Char} {as l : List Char}
    (h : (a :: as).isPrefixOf l = true) : l.head? = some a := by
  cases l with
  | nil => simp [List.isPrefixOf] at h
  | cons b bs =>
    simp only [List.isPrefixOf, Bool.and_eq_true, beq_iff_eq] at h
    rw [h.1]
    rfl

/-- C3 (counterexample).  The spec reads the word forms as "any non-empty
prefix of the word": under that reading `"o"` (a non-empty prefix of
`"off"`) parses as `false`, but the code requires the two letters `"of"`
and fails on `"o"`. -/
theorem parseBool_claim_counterexample :
    claimBoolSpec "o".data = some false ∧
    parseBoolGo "o".data = .error .unknownBoolean := ⟨rfl, rfl⟩

/-- C3 (amended).  Boolean parsing trims, lowercases, and then matches in
the fixed priority order of the code: exact `on`; any string *beginning
with* `of` (false); beginning with `t` (true); with `f` (false); with `y`
(true); with `n` (false); exact `1`; exact `0`; everything else fails.
Because the tests inspect the first letters only, the successful outcomes
are exactly the ones below; in particular `tru` parses true, `f` parses
false and `maybe` fails. -/
theorem parseBoolGo_characterization (value : List Char) :
    (parseBoolGo value = .ok true ↔
      toLowerStr (trimSpaceGo value) = "on".data ∨
      ("t".data).isPrefixOf (toLowerStr (trimSpaceGo value)) = true ∨
      ("y".data).isPrefixOf (toLowerStr (trimSpaceGo value)) = true ∨
      toLowerStr (trimSpaceGo value) = "1".data) ∧
    (parseBoolGo value = .ok false ↔
      ("of".data).isPrefixOf (toLowerStr (trimSpaceGo value)) = true ∨
      ("f".data).isPrefixOf (toLowerStr (trimSpaceGo value)) = true ∨
      ("n".data).isPrefixOf (toLowerStr (trimSpaceGo value)) = true ∨
      toLowerStr (trimSpaceGo value) = "0".data) ∧
    parseBoolGo "tru".data = .ok true ∧
    parseBoolGo "f".data = .ok false ∧
    parseBoolGo "maybe".data = .error .unknownBoolean := by
  refine ⟨?_, ?_, rfl, rfl, rfl⟩ <;>
  simp only [parseBoolGo] <;>
  set w := toLowerStr (trimSpaceGo value) with hw
  all_goals
    by_cases h1 : w = "on".data
    case pos =>
      rw [if_pos h1]
      first
      | exact iff_of_true rfl (Or.inl h1)
      | exact iff_of_false (by simp) (by rw [h1]; decide)
    case neg =>
      rw [if_neg h1]
      by_cases h2 : ("of".data).isPrefixOf w = true
      case pos =>
        rw [if_pos h2]
        have hh : w.head? = some 'o' := isPrefixOf_head h2
        first
        | · refine iff_of_false (by simp) ?_
            rintro (hc | hc | hc | hc)
            · exact h1 hc
            · exact absurd (hh ▸ isPrefixOf_head hc) (by decide)
            · exact absurd (hh ▸ isPrefixOf_head hc) (by decide)
            · rw [hc] at h2; exact absurd h2 (by decide)
        | exact iff_of_true rfl (Or.inl h2)
      case neg =>
        rw [if_neg h2]
        by_cases h3 : ("t".data).isPrefixOf w = true
        case pos =>
          rw [if_pos h3]
          have hh : w.head? = some 't' := isPrefixOf_head h3
          first
          | exact iff_of_true rfl (Or.inr (Or.inl h3))
          | · refine iff_of_false (by simp) ?_
              rintro (hc | hc | hc | hc)
              · exact absurd (hh ▸ isPrefixOf_head hc) (by decide)
              · exact absurd (hh ▸ isPrefixOf_head hc) (by decide)
              · exact absurd (hh ▸ isPrefixOf_head hc) (by decide)
              · rw [hc] at h3; exact absurd h3 (by decide)
        case neg =>
          rw [if_neg h3]
          by_cases h4 : ("f".data).isPrefixOf w = true
          case pos =>
            rw [if_pos h4]
            have hh : w.head? = some 'f' := isPrefixOf_head h4
            first
            | · refine iff_of_false (by simp) ?_
                rintro (hc | hc | hc | hc)
                · rw [hc] at h4; exact absurd h4 (by decide)
                · exact absurd (hh ▸ isPrefixOf_head hc) (by decide)
                · exact absurd (hh ▸ isPrefixOf_head hc) (by decide)
                · rw [hc] at h4; exact absurd h4 (by decide)
            | exact iff_of_true rfl (Or.inr (Or.inl h4))
          case neg =>
            rw [if_neg h4]
            by_cases h5 : ("y".data).isPrefixOf w = true
            case pos =>
              rw [if_pos h5]
              have hh : w.head? = some 'y' := isPrefixOf_head h5
              first
              | exact iff_of_true rfl (Or.inr (Or.inr (Or.inl h5)))
              | · refine iff_of_false (by simp) ?_
                  rintro (hc | hc | hc | hc)
                  · exact absurd (hh ▸ isPrefixOf_head hc) (by decide)
                  · exact absurd (hh ▸ isPrefixOf_head hc) (by decide)
                  · exact absurd (hh ▸ isPrefixOf_head hc) (by decide)
                  · rw [hc] at h5; exact absurd h5 (by decide)
            case neg =>
              rw [if_neg h5]
              by_cases h6 : ("n".data).isPrefixOf w = true
              case pos =>
                rw [if_pos h6]
                have hh : w.head? = some 'n' := isPrefixOf_head h6
                first
                | · refine iff_of_false (by simp) ?_
                    rintro (hc | hc | hc | hc)
                    · rw [hc] at h6; exact absurd h6 (by decide)
                    · exact absurd (hh ▸ isPrefixOf_head hc) (by decide)
                    · exact absurd (hh ▸ isPrefixOf_head hc) (by decide)
                    · rw [hc] at h6; exact absurd h6 (by decide)
                | exact iff_of_true rfl (Or.inr (Or.inr (Or.inl h6)))
              case neg =>
                rw [if_neg h6]
                by_cases h7 : w = "1".data
                case pos =>
                  rw [if_pos h7]
                  first
                  | exact iff_of_true rfl (Or.inr (Or.inr (Or.inr h7)))
                  | · refine iff_of_false (by simp) ?_
                      rintro (hc | hc | hc | hc) <;> rw [h7] at hc <;>
                        exact absurd hc (by decide)
                case neg =>
                  rw [if_neg h7]
                  by_cases h8 : w = "0".data
                  case pos =>
                    rw [if_pos h8]
                    first
                    | · refine iff_of_false (by simp) ?_
                        rintro (hc | hc | hc | hc) <;> rw [h8] at hc <;>
                          exact absurd hc (by decide)
                    | exact iff_of_true rfl (Or.inr (Or.inr (Or.inr h8)))
                  case neg =>
                    rw [if_neg h8]
                    refine iff_of_false (by simp) ?_
                    rintro (hc | hc | hc | hc) <;>
                      first
                      | exact h1 hc
                      | exact h2 hc
                      | exact h3 hc
                      | exact h4 hc
                      | exact h5 hc
                      | exact h6 hc
                      | exact h7 hc
                      | exact h8 hc


/-- C8.  `Raw` fails with the wrapped invalid-column error when the row has
no token at the requested index, and with the size error when the token's
computed size is `<= 0`; the key-only line `"nosuchkey  # comment\n"`
tokenizes to exactly one column, and requesting column 1 on it fails with
the invalid-column error. -/
theorem raw_error_behaviour :
    (∀ (c : Conf) (row : Row) (col : Int), row.HasColumn col = false →
       Raw c row col = .error (.couldNotRetrieveToken col (.invalidColumn col))) ∧
    (∀ (c : Conf) (row : Row) (col : Int) (t : Token) (sz : Int),
       row.Token col = .ok t → t.ValueSize = .ok sz → sz ≤ 0 →
       Raw c row col = .error (.valueSizeNotPositive sz col)) ∧
    (∃ row, parseLine ⟨"nosuchkey  # comment\n".data, confNewParams⟩
        "nosuchkey  # comment\n".data 0 = .ok row ∧ row.ColCount = 1 ∧
      Raw ⟨"nosuchkey  # comment\n".data, confNewParams⟩ row 1 =
        .error (.couldNotRetrieveToken 1 (.invalidColumn 1))) := by
  refine ⟨?_, ?_, ⟨⟨[⟨0, 9⟩]⟩, rfl, rfl, rfl⟩⟩
  · intro c row col hcol
    rw [Raw, Row.Token, dif_neg (by simp [hcol])]
  · intro c row col t sz htok hvs hsz
    rw [Raw, htok]
    dsimp only
    rw [hvs]
    dsimp only
    rw [if_pos hsz]

/-- Witness for C8's two error clauses: a row with no columns at column 0,
and a row whose only token is empty (`Start = End = 3`). -/
theorem raw_error_behaviour_witness :
    Raw ⟨"ab".data, confNewParams⟩ ⟨[]⟩ 0 =
      .error (.couldNotRetrieveToken 0 (.invalidColumn 0)) ∧
    Raw ⟨"ab".data, confNewParams⟩ ⟨[⟨3, 3⟩]⟩ 0 =
      .error (.valueSizeNotPositive 0 0) := by
  constructor
  · exact raw_error_behaviour.1 ⟨"ab".data, confNewParams⟩ ⟨[]⟩ 0 rfl
  · exact raw_error_behaviour.2.1 ⟨"ab".data, confNewParams⟩ ⟨[⟨3, 3⟩]⟩ 0
      ⟨3, 3⟩ 0 rfl rfl (by omega)

/-! ### The key-indexed lookup returns the last value-bearing match -/

theorem lookupKeyLoop_spec (c : Conf) (key : List Char) :
    ∀ (n offset : Nat) (best : Option Row), c.conf.length + 1 - offset ≤ n →
    lookupKeyLoop c key best offset =
      match ((keyMatchesL c 0 key true (splitLines (c.conf.drop offset))
          offset).filter (fun r => r.HasColumn 1)).getLast? with
      | some r => some r
      | none => best := by
  intro n
  induction n with
  | zero =>
    intro offset best hn
    have hdrop : c.conf.drop offset = [] := List.drop_eq_nil_of_le (by omega)
    rw [lookupKeyLoop]
    split
    case _ e heq =>
      rw [hdrop]
      rfl
    case _ r nextOffset heq =>
      have heq' : lookupLoop c 0 key true
          (splitLines (c.conf.drop offset)) offset = .ok (r, nextOffset) := heq
      rw [hdrop] at heq'
      exact absurd heq' (by simp [splitLines, lookupLoop])
  | succ n ih =>
    intro offset best hn
    rw [lookupKeyLoop]
    split
    case _ e heq =>
      have heq' : lookupLoop c 0 key true
          (splitLines (c.conf.drop offset)) offset = .error e := heq
      rw [lookupLoop_err (midNL_splitLines _) heq']
      rfl
    case _ r nextOffset heq =>
      have heq' : lookupLoop c 0 key true
          (splitLines (c.conf.drop offset)) offset = .ok (r, nextOffset) := heq
      obtain ⟨hlt, hle⟩ := LookupRow_ok_bounds heq
      obtain ⟨pre, rest, hdec, hoff, -, hkm⟩ := lookupLoop_ok heq'
      have hjoin := splitLines_join (c.conf.drop offset)
      have hdropnext : c.conf.drop nextOffset = rest.flatten := by
        have h1 : (c.conf.drop offset).drop (nextOffset - offset) =
            rest.flatten := by
          rw [← hjoin, hdec]
          simp only [List.flatten_append]
          have h2 : nextOffset - offset = pre.flatten.length := by omega
          rw [h2, List.drop_left]
        rw [List.drop_drop] at h1
        rw [← h1]
        congr 1
        omega
      have hrest : splitLines (c.conf.drop nextOffset) = rest := by
        rw [hdropnext]
        exact splitLines_suffix hdec
      rw [ih nextOffset (if r.HasColumn 1 = true then some r else best)
        (by omega), hrest, hkm, List.filter_cons]
      by_cases hc : r.HasColumn 1 = true
      · rw [if_pos hc]
        cases hg : ((keyMatchesL c 0 key true rest nextOffset).filter
            (fun r => r.HasColumn 1)).getLast? with
        | none =>
          have hnil := List.getLast?_eq_none_iff.mp hg
          rw [hnil, if_pos hc]
          rfl
        | some x =>
          have hne : (keyMatchesL c 0 key true rest nextOffset).filter
              (fun r => r.HasColumn 1) ≠ [] := by
            intro h0; rw [h0] at hg; exact absurd hg (by simp)
          rw [if_pos hc, getLast?_cons_of_ne hne, hg]
      · rw [if_neg hc, if_neg hc]

/-- C9.  `conf.LookupKey` scans the whole buffer and returns the last row
whose key column (column 0) matches the key — the per-line match test
`lineMatch` compares the raw column text case-insensitively — and which has
a value column (column 1); key-matching rows without a value are skipped,
and it fails with `KeyNotFound` when no value-bearing match exists at all. -/
theorem lookupKey_last_value_bearing (c : Conf) (key : List Char) :
    LookupKey c key =
      match ((keyMatchesL c 0 key true (splitLines c.conf) 0).filter
          (fun r => r.HasColumn 1)).getLast? with
      | some r => .ok r
      | none => .error .keyNotFound := by
  have hspec := lookupKeyLoop_spec c key (c.conf.length + 1) 0 none (by omega)
  rw [List.drop_zero] at hspec
  rw [LookupKey, hspec]
  cases hg : ((keyMatchesL c 0 key true (splitLines c.conf) 0).filter
      (fun r => r.HasColumn 1)).getLast? with
  | none => rfl
  | some r => rfl

end Pgconf
